import Mathlib

/-!
Shallow embedding of the frequency-coverage statistics engine in
`src/app/lib/stats.ts`, together with proofs of the specified properties.

Conventions:
* TS `number` values are modelled as `Int` where the program only ever holds
  integers (ids, levels, frequency ranks) and as `ℚ` where genuine division
  occurs (harmonic sums, percentages).
* `Set<string>` is modelled as a `List String` queried through `contains`
  (the program only performs membership tests).
* Optional fields (`number | null`) become `Option Int`.
* Imperative loops become explicit state-passing folds.
-/

/-- One vocabulary entry (interface `HskWord` in `types.ts`). -/
structure HskWord where
  id : String
  character : String
  pinyin : String
  meaning : String
  hskLevel : Option Int
  frequency : Option Int
deriving Repr, DecidableEq

/-- `const BUCKET_SIZE = 500`. -/
def BUCKET_SIZE : Int := 500

/-- `const NUM_BUCKETS = 20`. -/
def NUM_BUCKETS : Nat := 20

/-- `const R = 10000`. -/
def R : Int := 10000

/-- `const TOP_N = 5000` (local to `computeFrequencyStats`). -/
def TOP_N : Int := 5000

/-- `word.hskLevel !== null && word.hskLevel <= 6`. -/
def isCore (w : HskWord) : Bool :=
  match w.hskLevel with
  | some l => decide (l ≤ 6)
  | none => false

/-- Numeric value of `word.frequency!` at runtime: the TS non-null assertion
erases only the static type, and a runtime `null` coerces to the number `0`
in both the subtraction `freq - 1` and the comparison `freq <= TOP_N`. -/
def jsFreqVal (f : Option Int) : Int := f.getD 0

/-- `Math.min(Math.floor((freq - 1) / BUCKET_SIZE), NUM_BUCKETS - 1)`;
`Math.floor` of the real quotient of integers is floor division. -/
def bucketIndex (freq : Int) : Int :=
  min ((freq - 1).fdiv BUCKET_SIZE) ((NUM_BUCKETS : Int) - 1)

/-- One histogram bucket (interface `FrequencyBucket` in `types.ts`). -/
structure FrequencyBucket where
  rangeLabel : String
  min : Int
  max : Int
  hskCount : Nat
  trackedCount : Nat
deriving Repr, DecidableEq

/-- Result of `computeFrequencyStats` (interface `FrequencyStats`);
`levelWords`/`levelTracked` are optional fields, present exactly when the
`level === 7` spread adds them. -/
structure FrequencyStats where
  buckets : List FrequencyBucket
  totalWords : Nat
  totalTracked : Nat
  topNTotal : Nat
  topNTracked : Nat
  coveragePercent : Int
  levelWords : Option Nat
  levelTracked : Option Nat
deriving Repr, DecidableEq

/-- The `Array.from({ length: NUM_BUCKETS }, (_, i) => ...)` initializer. -/
def initBuckets : List FrequencyBucket :=
  (List.range NUM_BUCKETS).map fun i =>
    let mn : Int := (i : Int) * BUCKET_SIZE + 1
    let mx : Int := ((i : Int) + 1) * BUCKET_SIZE
    { rangeLabel := s!"{mn}-{mx}", min := mn, max := mx,
      hskCount := 0, trackedCount := 0 }

/-- Mutable state of the `for (const word of filtered)` loop. -/
structure StatsAcc where
  buckets : List FrequencyBucket
  totalTracked : Nat
  topNTotal : Nat
  topNTracked : Nat
  levelWords : Nat
  levelTracked : Nat
deriving Repr, DecidableEq

/-- In-place update of one array slot (`buckets[bucketIndex].hskCount++` etc.);
out-of-range indices leave the list unchanged. -/
def updateAt {α : Type} (f : α → α) : Nat → List α → List α
  | _, [] => []
  | 0, x :: xs => f x :: xs
  | j + 1, x :: xs => x :: updateAt f j xs

/-- Body of the `for (const word of filtered)` loop in `computeFrequencyStats`. -/
def stepStats (trackedSet : List String) (level : Option Int)
    (acc : StatsAcc) (w : HskWord) : StatsAcc :=
  let isTracked := trackedSet.contains w.id
  let acc := if isTracked then { acc with totalTracked := acc.totalTracked + 1 } else acc
  let acc :=
    if level == some 7 && w.hskLevel == some 7 then
      { acc with levelWords := acc.levelWords + 1,
                 levelTracked := acc.levelTracked + (if isTracked then 1 else 0) }
    else acc
  let freq := jsFreqVal w.frequency
  let idx := bucketIndex freq
  let bump : FrequencyBucket → FrequencyBucket := fun b =>
    { b with hskCount := b.hskCount + 1,
             trackedCount := b.trackedCount + (if isTracked then 1 else 0) }
  let acc :=
    if 0 ≤ idx ∧ idx < (NUM_BUCKETS : Int) then
      { acc with buckets := updateAt bump idx.toNat acc.buckets }
    else acc
  if freq ≤ TOP_N then
    { acc with topNTotal := acc.topNTotal + 1,
               topNTracked := acc.topNTracked + (if isTracked then 1 else 0) }
  else acc

/-- The scope filter at the top of `computeFrequencyStats`:
`level === 7` keeps words with non-null frequency, otherwise words with a
non-null core-tier level. -/
def scopeFilter (level : Option Int) (words : List HskWord) : List HskWord :=
  if level == some 7 then words.filter (fun w => w.frequency.isSome)
  else words.filter (fun w => isCore w)

/-- `computeFrequencyStats(words, trackedSet, level?)`. -/
def computeFrequencyStats (words : List HskWord) (trackedSet : List String)
    (level : Option Int) : FrequencyStats :=
  let filtered := scopeFilter level words
  let acc := filtered.foldl (stepStats trackedSet level)
    { buckets := initBuckets, totalTracked := 0, topNTotal := 0,
      topNTracked := 0, levelWords := 0, levelTracked := 0 }
  let coveragePercent : Int :=
    if 0 < acc.topNTotal then
      round (((acc.topNTracked : ℚ) / (acc.topNTotal : ℚ)) * 100)
    else 0
  { buckets := acc.buckets
    totalWords := filtered.length
    totalTracked := acc.totalTracked
    topNTotal := acc.topNTotal
    topNTracked := acc.topNTracked
    coveragePercent := coveragePercent
    levelWords := if level == some 7 then some acc.levelWords else none
    levelTracked := if level == some 7 then some acc.levelTracked else none }

/-- `harmonicNumber(n)`: the loop `for (k = 1; k <= n; k++) sum += 1 / k`,
i.e. the sum of `1/k` for `k = 1 .. n` (empty for `n ≤ 0`). -/
def harmonicNumber (n : Int) : ℚ :=
  ∑ k ∈ Finset.range n.toNat, 1 / ((k : ℚ) + 1)

/-- `const H_R = harmonicNumber(R)`. -/
def H_R : ℚ := harmonicNumber R

/-- The cumulative-sum loop of `buildPrefixSums`: value at index `i` is the
running total `sum` after adding `1 / sorted[i]`. -/
def prefixLoop (sum : ℚ) : List Int → List ℚ
  | [] => []
  | r :: rs => (sum + 1 / (r : ℚ)) :: prefixLoop (sum + 1 / (r : ℚ)) rs

/-- `buildPrefixSums(ranks)`: sort ascending (`.sort((a, b) => a - b)`), then
the parallel cumulative-sum array; returned as the pair (sorted, sums). -/
def buildPrefixSums (ranks : List Int) : List Int × List ℚ :=
  let sorted := ranks.mergeSort (fun a b => decide (a ≤ b))
  (sorted, prefixLoop 0 sorted)

/-- The `while (lo <= hi)` binary-search loop of `cumulativeAt`; `res` holds
the JS variable `result`, and `(lo + hi) >> 1` is floor division by two. -/
def searchLoop (sorted : List Int) (n : Int) (lo hi res : Int) : Int :=
  if h : lo ≤ hi then
    let mid := (lo + hi).fdiv 2
    if sorted.getD mid.toNat 0 ≤ n then searchLoop sorted n (mid + 1) hi mid
    else searchLoop sorted n lo (mid - 1) res
  else res
termination_by (hi + 1 - lo).toNat
decreasing_by
  · have hmid : lo ≤ (lo + hi).fdiv 2 := by
      have h2 : lo * 2 ≤ lo + hi := by omega
      have := Int.fdiv_eq_ediv (lo + hi) (b := 2) (by omega)
      rw [this]
      exact (Int.le_ediv_iff_mul_le (by omega)).mpr h2
    omega
  · have hmid : (lo + hi).fdiv 2 ≤ hi := by
      have h2 : lo + hi ≤ hi * 2 := by omega
      have := Int.fdiv_eq_ediv (lo + hi) (b := 2) (by omega)
      rw [this]
      calc (lo + hi) / 2 ≤ hi * 2 / 2 := Int.ediv_le_ediv (by omega) h2
        _ = hi := by omega
    omega

/-- `cumulativeAt(sorted, prefix, n)`: 0 for `n ≤ 0` or an empty array,
otherwise the prefix value at the last index whose rank is `≤ n` (0 if none). -/
def cumulativeAt (sorted : List Int) (sums : List ℚ) (n : Int) : ℚ :=
  if n ≤ 0 ∨ sorted.length = 0 then 0
  else
    let res := searchLoop sorted n 0 ((sorted.length : Int) - 1) (-1)
    if 0 ≤ res then sums.getD res.toNat 0 else 0

/-- The three rank arrays built by the partition loop of
`computeCoverageCurve`. -/
structure RankLists where
  hsk16Ranks : List Int
  hsk79Ranks : List Int
  trackedRanks : List Int
deriving Repr, DecidableEq

/-- Body of the `for (const word of words)` partition loop of
`computeCoverageCurve`: a usable frequency is pushed onto the core-tier list
when `hskLevel !== null && hskLevel <= 6`, otherwise onto the extended list,
and additionally onto the tracked list when the id is tracked. -/
def partitionStep (trackedSet : List String) (acc : RankLists) (w : HskWord) :
    RankLists :=
  match w.frequency with
  | some f =>
    if 1 ≤ f ∧ f ≤ R then
      let acc :=
        if isCore w then { acc with hsk16Ranks := acc.hsk16Ranks ++ [f] }
        else { acc with hsk79Ranks := acc.hsk79Ranks ++ [f] }
      if trackedSet.contains w.id then
        { acc with trackedRanks := acc.trackedRanks ++ [f] }
      else acc
    else acc
  | none => acc

/-- The four sampling loops: ranks 0–1000 step 50, 1100–3000 step 100,
3250–5000 step 250, 5500–10000 step 500. -/
def sampleRanks : List Int :=
  (List.range' 0 21 50 ++ List.range' 1100 20 100 ++
   List.range' 3250 8 250 ++ List.range' 5500 10 500).map fun r => (r : Int)

/-- One element of the `points` array (interface `CoveragePoint`). -/
structure CoveragePoint where
  rank : Int
  zipfPercent : ℚ
  hsk16Percent : ℚ
  hskAllPercent : ℚ
  trackedPercent : ℚ
deriving Repr, DecidableEq

/-- Result of `computeCoverageCurve` (interface `CoverageCurveData`). -/
structure CoverageCurveData where
  points : List CoveragePoint
  totalHsk16Percent : ℚ
  totalHskAllPercent : ℚ
  totalTrackedPercent : ℚ
deriving Repr, DecidableEq

/-- `array[array.length - 1]` guarded by `length > 0`, with 0 otherwise. -/
def lastOrZero (l : List ℚ) : ℚ :=
  if 0 < l.length then l.getD (l.length - 1) 0 else 0

/-- `Math.round(x * 1000) / 10`: rounding to one decimal place. -/
def roundTenth (x : ℚ) : ℚ := ((round (x * 1000) : ℤ) : ℚ) / 10

/-- `computeCoverageCurve(words, trackedSet)`. -/
def computeCoverageCurve (words : List HskWord) (trackedSet : List String) :
    CoverageCurveData :=
  let rl := words.foldl (partitionStep trackedSet)
    { hsk16Ranks := [], hsk79Ranks := [], trackedRanks := [] }
  let hsk16 := buildPrefixSums rl.hsk16Ranks
  let hsk79 := buildPrefixSums rl.hsk79Ranks
  let tracked := buildPrefixSums rl.trackedRanks
  let points := sampleRanks.map fun n =>
    let zipfPercent := if n == 0 then 0 else harmonicNumber n / H_R * 100
    let h16 := cumulativeAt hsk16.1 hsk16.2 n
    let h79 := cumulativeAt hsk79.1 hsk79.2 n
    let ht := cumulativeAt tracked.1 tracked.2 n
    { rank := n
      zipfPercent := zipfPercent
      hsk16Percent := h16 / H_R * 100
      hskAllPercent := (h16 + h79) / H_R * 100
      trackedPercent := ht / H_R * 100 : CoveragePoint }
  let totalHsk16 := lastOrZero hsk16.2
  let totalHsk79 := lastOrZero hsk79.2
  let totalTracked := lastOrZero tracked.2
  { points := points
    totalHsk16Percent := roundTenth (totalHsk16 / H_R)
    totalHskAllPercent := roundTenth ((totalHsk16 + totalHsk79) / H_R)
    totalTrackedPercent := roundTenth (totalTracked / H_R) }

/-! ### Generic helpers about `updateAt` and state-passing folds -/

theorem updateAt_length {α : Type} (f : α → α) :
    ∀ (i : Nat) (l : List α), (updateAt f i l).length = l.length := by
  intro i l
  induction l generalizing i with
  | nil => cases i <;> rfl
  | cons x xs ih =>
    cases i with
    | zero => rfl
    | succ j => simp [updateAt, ih]

theorem updateAt_getElem? {α : Type} (f : α → α) :
    ∀ (i : Nat) (l : List α) (j : Nat),
      (updateAt f i l)[j]? = if i = j then Option.map f l[j]? else l[j]? := by
  intro i l
  induction l generalizing i with
  | nil => intro j; simp [updateAt]
  | cons x xs ih =>
    intro j
    cases i with
    | zero =>
      cases j with
      | zero => simp [updateAt]
      | succ j' => simp [updateAt]
    | succ i' =>
      cases j with
      | zero => simp [updateAt]
      | succ j' => simpa [updateAt] using ih i' j'

theorem updateAt_getD {α : Type} (f : α → α) (i j : Nat) (l : List α) (d : α)
    (hj : j < l.length) :
    (updateAt f i l).getD j d = if i = j then f (l.getD j d) else l.getD j d := by
  rw [List.getD_eq_getElem?_getD, List.getD_eq_getElem?_getD, updateAt_getElem?]
  rw [List.getElem?_eq_getElem hj]
  by_cases h : i = j <;> simp [h]

theorem updateAt_forall {α : Type} (f : α → α) (P : α → Prop)
    (hf : ∀ b, P b → P (f b)) :
    ∀ (i : Nat) (l : List α), (∀ b ∈ l, P b) → ∀ b ∈ updateAt f i l, P b := by
  intro i l
  induction l generalizing i with
  | nil => intro _ b hb; cases i <;> cases hb
  | cons x xs ih =>
    intro hl b hb
    cases i with
    | zero =>
      simp only [updateAt] at hb
      rcases List.mem_cons.mp hb with h | hb
      · rw [h]; exact hf x (hl x (List.mem_cons_self x xs))
      · exact hl b (List.mem_cons_of_mem x hb)
    | succ j =>
      simp only [updateAt] at hb
      rcases List.mem_cons.mp hb with h | hb
      · rw [h]; exact hl x (List.mem_cons_self x xs)
      · exact ih j (fun c hc => hl c (List.mem_cons_of_mem x hc)) b hb

theorem updateAt_map_sum {α : Type} (f : α → α) (g : α → Nat) (c : Nat)
    (hfg : ∀ b, g (f b) = g b + c) :
    ∀ (i : Nat) (l : List α),
      ((updateAt f i l).map g).sum
        = (l.map g).sum + (if i < l.length then c else 0) := by
  intro i l
  induction l generalizing i with
  | nil => simp [updateAt]
  | cons x xs ih =>
    cases i with
    | zero => simp [updateAt, hfg x]; omega
    | succ j =>
      simp only [updateAt, List.map_cons, List.sum_cons, ih j, List.length_cons]
      have : j < xs.length ↔ j + 1 < xs.length + 1 := by omega
      by_cases h : j < xs.length <;> simp [h] <;> omega

theorem foldl_inv {α β : Type} (step : β → α → β) (P : β → Prop)
    (hstep : ∀ acc w, P acc → P (step acc w)) :
    ∀ (l : List α) (acc : β), P acc → P (l.foldl step acc) := by
  intro l
  induction l with
  | nil => intro acc h; exact h
  | cons w ws ih => intro acc h; exact ih (step acc w) (hstep acc w h)

theorem foldl_count {α β : Type} (step : β → α → β) (Q : β → Prop)
    (μ : β → Nat) (p : α → Bool)
    (hQ : ∀ acc w, Q acc → Q (step acc w))
    (hμ : ∀ acc w, Q acc → μ (step acc w) = μ acc + (if p w then 1 else 0)) :
    ∀ (l : List α) (acc : β), Q acc →
      μ (l.foldl step acc) = μ acc + l.countP p := by
  intro l
  induction l with
  | nil => intro acc _; simp
  | cons w ws ih =>
    intro acc hq
    simp only [List.foldl_cons, List.countP_cons]
    rw [ih (step acc w) (hQ acc w hq), hμ acc w hq]
    by_cases h : p w <;> simp [h] <;> omega

/-! ### Weighted sums of reciprocal ranks -/

/-- Sum of `1/r` over all entries of `l`: the total cumulative weight,
i.e. the value of the last prefix-sum slot. -/
def totalWeight (l : List Int) : ℚ :=
  (l.map (fun r : Int => 1 / (r : ℚ))).sum

/-- Sum of `1/r` over the entries of `l` that are `≤ n`: the value the
"cumulative weight of all ranks ≤ n" query is meant to return. -/
def weightBelow (l : List Int) (n : Int) : ℚ :=
  totalWeight (l.filter (fun r => decide (r ≤ n)))

theorem totalWeight_nil : totalWeight [] = 0 := rfl

theorem totalWeight_cons (r : Int) (l : List Int) :
    totalWeight (r :: l) = 1 / (r : ℚ) + totalWeight l := by
  simp [totalWeight]

theorem totalWeight_perm {l₁ l₂ : List Int} (h : l₁.Perm l₂) :
    totalWeight l₁ = totalWeight l₂ :=
  List.Perm.sum_eq (h.map (fun r : Int => 1 / (r : ℚ)))

theorem totalWeight_nonneg {l : List Int} (hpos : ∀ r ∈ l, 0 < r) :
    0 ≤ totalWeight l := by
  refine List.sum_nonneg ?_
  intro x hx
  rw [List.mem_map] at hx
  obtain ⟨r, hr, hxr⟩ := hx
  have hr' : (0 : ℚ) < (r : ℚ) := by exact_mod_cast hpos r hr
  rw [← hxr]
  positivity

theorem weightBelow_nil (n : Int) : weightBelow [] n = 0 := rfl

theorem weightBelow_cons (r : Int) (l : List Int) (n : Int) :
    weightBelow (r :: l) n
      = (if r ≤ n then 1 / (r : ℚ) else 0) + weightBelow l n := by
  simp only [weightBelow, List.filter_cons]
  by_cases h : r ≤ n <;> simp [h, totalWeight_cons]

theorem weightBelow_perm {l₁ l₂ : List Int} (h : l₁.Perm l₂) (n : Int) :
    weightBelow l₁ n = weightBelow l₂ n :=
  totalWeight_perm (List.Perm.filter _ h)

theorem weightBelow_nonneg {l : List Int} (hpos : ∀ r ∈ l, 0 < r) (n : Int) :
    0 ≤ weightBelow l n := by
  refine totalWeight_nonneg ?_
  intro r hr
  exact hpos r (List.mem_of_mem_filter hr)

theorem weightBelow_mono {l : List Int} (hpos : ∀ r ∈ l, 0 < r)
    {n m : Int} (hnm : n ≤ m) : weightBelow l n ≤ weightBelow l m := by
  induction l with
  | nil => simp [weightBelow_nil]
  | cons r rs ih =>
    have hr : 0 < r := hpos r (List.mem_cons_self r rs)
    have ih' := ih (fun x hx => hpos x (List.mem_cons_of_mem r hx))
    rw [weightBelow_cons, weightBelow_cons]
    have hterm : (if r ≤ n then 1 / (r : ℚ) else 0)
        ≤ (if r ≤ m then 1 / (r : ℚ) else 0) := by
      by_cases h1 : r ≤ n
      · simp [h1, le_trans h1 hnm]
      · by_cases h2 : r ≤ m <;> simp [h1, h2] <;> positivity
    exact add_le_add hterm ih'

theorem weightBelow_eq_totalWeight {l : List Int} {n : Int}
    (h : ∀ r ∈ l, r ≤ n) : weightBelow l n = totalWeight l := by
  unfold weightBelow
  congr 1
  exact List.filter_eq_self.mpr (fun a ha => by simpa using h a ha)

theorem weightBelow_nonpos_eq_zero {l : List Int} {n : Int}
    (hpos : ∀ r ∈ l, 0 < r) (hn : n ≤ 0) : weightBelow l n = 0 := by
  unfold weightBelow
  have : l.filter (fun r => decide (r ≤ n)) = [] := by
    refine List.filter_eq_nil_iff.mpr ?_
    intro a ha
    have := hpos a ha
    simp only [decide_eq_true_eq]
    omega
  rw [this, totalWeight_nil]

/-! ### The prefix-sum array -/

theorem prefixLoop_length (s : ℚ) (l : List Int) :
    (prefixLoop s l).length = l.length := by
  induction l generalizing s with
  | nil => rfl
  | cons r rs ih => simp [prefixLoop, ih]

theorem prefixLoop_getElem? (l : List Int) :
    ∀ (s : ℚ) (i : Nat), i < l.length →
      (prefixLoop s l)[i]? = some (s + totalWeight (l.take (i + 1))) := by
  induction l with
  | nil => intro s i hi; simp at hi
  | cons r rs ih =>
    intro s i hi
    cases i with
    | zero => simp [prefixLoop, totalWeight_cons, totalWeight_nil]
    | succ j =>
      have hj : j < rs.length := by simpa using hi
      simp only [prefixLoop, List.getElem?_cons_succ, ih _ j hj,
        List.take_succ_cons, totalWeight_cons]
      rw [add_assoc]

/-! ### Sorted lists and the binary search -/

theorem fdiv2_lower (lo hi : Int) (h : lo ≤ hi) : lo ≤ (lo + hi).fdiv 2 := by
  have h2 : lo * 2 ≤ lo + hi := by omega
  rw [Int.fdiv_eq_ediv (lo + hi) (by omega : (0:Int) ≤ 2)]
  exact (Int.le_ediv_iff_mul_le (by omega)).mpr h2

theorem fdiv2_upper (lo hi : Int) (h : lo ≤ hi) : (lo + hi).fdiv 2 ≤ hi := by
  have h2 : lo + hi ≤ hi * 2 := by omega
  rw [Int.fdiv_eq_ediv (lo + hi) (by omega : (0:Int) ≤ 2)]
  calc (lo + hi) / 2 ≤ hi * 2 / 2 := Int.ediv_le_ediv (by omega) h2
    _ = hi := by omega

theorem sorted_le_iff_lt_countP {l : List Int} {n : Int}
    (hsort : l.Pairwise (fun a b : Int => a ≤ b)) :
    ∀ (i : Nat) (h : i < l.length),
      (l[i] ≤ n ↔ i < l.countP (fun r => decide (r ≤ n))) := by
  induction l with
  | nil => intro i h; simp at h
  | cons x xs ih =>
    obtain ⟨hx, hs⟩ := List.pairwise_cons.mp hsort
    intro i h
    cases i with
    | zero =>
      rw [List.getElem_cons_zero, List.countP_cons]
      by_cases hxn : x ≤ n
      · simp [hxn]
      · have hzero : xs.countP (fun r => decide (r ≤ n)) = 0 := by
          refine List.countP_eq_zero.mpr ?_
          intro a ha
          simp only [decide_eq_true_eq]
          have := hx a ha
          omega
        simp [hxn, hzero]
    | succ j =>
      have hj : j < xs.length := by simpa using h
      rw [List.getElem_cons_succ, List.countP_cons]
      have hiff := ih hs j hj
      by_cases hxn : x ≤ n
      · rw [hiff]
        simp only [hxn, decide_True, if_true]
        omega
      · have hzero : xs.countP (fun r => decide (r ≤ n)) = 0 := by
          refine List.countP_eq_zero.mpr ?_
          intro a ha
          simp only [decide_eq_true_eq]
          have := hx a ha
          omega
        have hxj : ¬ xs[j] ≤ n := by
          have := hx xs[j] (xs.getElem_mem hj)
          omega
        simp [hxn, hzero, hxj]

theorem sorted_filter_eq_take {l : List Int} {n : Int}
    (hsort : l.Pairwise (fun a b : Int => a ≤ b)) :
    l.filter (fun r => decide (r ≤ n))
      = l.take (l.countP (fun r => decide (r ≤ n))) := by
  induction l with
  | nil => rfl
  | cons x xs ih =>
    obtain ⟨hx, hs⟩ := List.pairwise_cons.mp hsort
    by_cases hxn : x ≤ n
    · simp [List.filter_cons, List.countP_cons, hxn, ih hs]
    · have hzero : xs.countP (fun r => decide (r ≤ n)) = 0 := by
        refine List.countP_eq_zero.mpr ?_
        intro a ha
        simp only [decide_eq_true_eq]
        have := hx a ha
        omega
      have hfil : xs.filter (fun r => decide (r ≤ n)) = [] := by
        refine List.filter_eq_nil_iff.mpr ?_
        intro a ha
        simp only [decide_eq_true_eq]
        have := hx a ha
        omega
      simp [List.filter_cons, List.countP_cons, hxn, hzero, hfil]

/-- The binary-search loop returns `K - 1` where `K` is the number of entries
`≤ n`, provided the invariant `res = lo - 1`, `0 ≤ lo`, `hi < length`,
`lo ≤ K ≤ hi + 1` holds (it does at the initial call). -/
theorem searchLoop_correct (l : List Int) (n : Int)
    (hsort : l.Pairwise (fun a b : Int => a ≤ b)) (lo hi : Int)
    (hlo : 0 ≤ lo) (hhi : hi < (l.length : Int))
    (hK1 : lo ≤ (l.countP (fun r => decide (r ≤ n)) : Int))
    (hK2 : (l.countP (fun r => decide (r ≤ n)) : Int) ≤ hi + 1) :
    searchLoop l n lo hi (lo - 1)
      = (l.countP (fun r => decide (r ≤ n)) : Int) - 1 := by
  rw [searchLoop]
  by_cases h : lo ≤ hi
  · rw [dif_pos h]
    have hmid_lo : lo ≤ (lo + hi).fdiv 2 := fdiv2_lower lo hi h
    have hmid_hi : (lo + hi).fdiv 2 ≤ hi := fdiv2_upper lo hi h
    have hmidnat : ((lo + hi).fdiv 2).toNat < l.length := by omega
    have hget : l.getD ((lo + hi).fdiv 2).toNat 0 = l[((lo + hi).fdiv 2).toNat] := by
      rw [List.getD_eq_getElem?_getD, List.getElem?_eq_getElem hmidnat]
      rfl
    have hiff := sorted_le_iff_lt_countP (n := n) hsort ((lo + hi).fdiv 2).toNat hmidnat
    by_cases hle : l.getD ((lo + hi).fdiv 2).toNat 0 ≤ n
    · rw [if_pos hle]
      have hmidK : (lo + hi).fdiv 2 + 1 ≤ (l.countP (fun r => decide (r ≤ n)) : Int) := by
        have := hiff.mp (by rwa [hget] at hle)
        omega
      have hrec := searchLoop_correct l n hsort ((lo + hi).fdiv 2 + 1) hi
        (by omega) hhi hmidK hK2
      rw [show ((lo + hi).fdiv 2 + 1 - 1 : Int) = (lo + hi).fdiv 2 by omega] at hrec
      exact hrec
    · rw [if_neg hle]
      have hmidK : (l.countP (fun r => decide (r ≤ n)) : Int) ≤ (lo + hi).fdiv 2 := by
        by_contra hc
        exact hle (hget ▸ hiff.mpr (by omega))
      exact searchLoop_correct l n hsort lo ((lo + hi).fdiv 2 - 1)
        hlo (by omega) hK1 (by omega)
  · rw [dif_neg h]
    omega
termination_by (hi + 1 - lo).toNat
decreasing_by
  all_goals omega

/-- Correctness of the prefix-sum + binary-search query: for positive ranks,
`cumulativeAt` over `buildPrefixSums ranks` returns the sum of `1/r` over all
entries `r ≤ n`. -/
theorem cumulativeAt_eq_weightBelow (ranks : List Int) (n : Int)
    (hpos : ∀ r ∈ ranks, 0 < r) :
    cumulativeAt (buildPrefixSums ranks).1 (buildPrefixSums ranks).2 n
      = weightBelow ranks n := by
  have hperm : (ranks.mergeSort (fun a b => decide (a ≤ b))).Perm ranks :=
    List.mergeSort_perm ranks _
  have hsort : (ranks.mergeSort (fun a b => decide (a ≤ b))).Pairwise
      (fun a b : Int => a ≤ b) := by
    have h := @List.sorted_mergeSort Int (fun a b : Int => decide (a ≤ b))
      (fun a b c hab hbc => by
        simp only [decide_eq_true_eq] at *
        omega)
      (fun a b => by
        simp only [Bool.or_eq_true, decide_eq_true_eq]
        omega)
      ranks
    exact h.imp (fun hab => of_decide_eq_true hab)
  have h1 : (buildPrefixSums ranks).1 = ranks.mergeSort (fun a b => decide (a ≤ b)) := rfl
  have h2 : (buildPrefixSums ranks).2
      = prefixLoop 0 (ranks.mergeSort (fun a b => decide (a ≤ b))) := rfl
  rw [h1, h2]
  set sorted := ranks.mergeSort (fun a b => decide (a ≤ b)) with hsorted_def
  have hpos' : ∀ r ∈ sorted, 0 < r := fun r hr => hpos r (hperm.mem_iff.mp hr)
  unfold cumulativeAt
  by_cases hn0 : n ≤ 0 ∨ sorted.length = 0
  · rw [if_pos hn0]
    rcases hn0 with hn | hlen
    · exact (weightBelow_nonpos_eq_zero hpos hn).symm
    · have : ranks = [] := by
        have := hperm.length_eq
        exact List.eq_nil_of_length_eq_zero (by omega)
      rw [this, weightBelow_nil]
  · push_neg at hn0
    obtain ⟨hn, hlen⟩ := hn0
    rw [if_neg (by push_neg; exact ⟨hn, hlen⟩)]
    have hcnt_le : sorted.countP (fun r => decide (r ≤ n)) ≤ sorted.length :=
      List.countP_le_length _
    have hcorrect := searchLoop_correct sorted n hsort 0 ((sorted.length : Int) - 1)
      le_rfl (by omega) (by omega) (by omega)
    rw [show (-1 : Int) = 0 - 1 by omega, hcorrect]
    by_cases hK : sorted.countP (fun r => decide (r ≤ n)) = 0
    · rw [hK]
      norm_num
      have hfil : sorted.filter (fun r => decide (r ≤ n)) = [] := by
        refine List.filter_eq_nil_iff.mpr ?_
        intro a ha
        have := List.countP_eq_zero.mp hK a ha
        simpa using this
      rw [← weightBelow_perm hperm n]
      unfold weightBelow
      rw [hfil, totalWeight_nil]
    · have hKpos : 1 ≤ sorted.countP (fun r => decide (r ≤ n)) := by omega
      rw [if_pos (by omega : (0:Int) ≤ (sorted.countP (fun r => decide (r ≤ n)) : Int) - 1)]
      have htonat : ((sorted.countP (fun r => decide (r ≤ n)) : Int) - 1).toNat
          = sorted.countP (fun r => decide (r ≤ n)) - 1 := by omega
      rw [htonat]
      have hidx : sorted.countP (fun r => decide (r ≤ n)) - 1 < sorted.length := by
        omega
      have hgetE := prefixLoop_getElem? sorted 0
        (sorted.countP (fun r => decide (r ≤ n)) - 1) hidx
      rw [List.getD_eq_getElem?_getD, hgetE]
      have htake : sorted.countP (fun r => decide (r ≤ n)) - 1 + 1
          = sorted.countP (fun r => decide (r ≤ n)) := by omega
      rw [htake]
      rw [← weightBelow_perm hperm n]
      unfold weightBelow
      rw [sorted_filter_eq_take hsort]
      simp

/-! ### Characterizing the partition loop of `computeCoverageCurve` -/

/-- Declarative form of the core-tier rank list: frequencies in `[1, R]` of
words whose `hskLevel` is non-null and `≤ 6`. -/
def coreRanksOf (words : List HskWord) : List Int :=
  words.filterMap fun w =>
    match w.frequency with
    | some f => if (1 ≤ f ∧ f ≤ R) ∧ isCore w then some f else none
    | none => none

/-- Declarative form of the extended-tier rank list: frequencies in `[1, R]`
of words whose `hskLevel` is null or `≥ 7` (the `else` branch of the loop). -/
def extRanksOf (words : List HskWord) : List Int :=
  words.filterMap fun w =>
    match w.frequency with
    | some f => if (1 ≤ f ∧ f ≤ R) ∧ ¬ isCore w then some f else none
    | none => none

/-- Declarative form of the tracked rank list: frequencies in `[1, R]` of
words whose id is in the tracked set. -/
def trackedRanksOf (trackedSet : List String) (words : List HskWord) : List Int :=
  words.filterMap fun w =>
    match w.frequency with
    | some f => if (1 ≤ f ∧ f ≤ R) ∧ trackedSet.contains w.id then some f else none
    | none => none

theorem partition_foldl (trackedSet : List String) :
    ∀ (words : List HskWord) (acc : RankLists),
      words.foldl (partitionStep trackedSet) acc
        = { hsk16Ranks := acc.hsk16Ranks ++ coreRanksOf words,
            hsk79Ranks := acc.hsk79Ranks ++ extRanksOf words,
            trackedRanks := acc.trackedRanks ++ trackedRanksOf trackedSet words } := by
  intro words
  induction words with
  | nil => intro acc; simp [coreRanksOf, extRanksOf, trackedRanksOf]
  | cons w ws ih =>
    intro acc
    rw [List.foldl_cons, ih]
    unfold partitionStep coreRanksOf extRanksOf trackedRanksOf
    cases hf : w.frequency with
    | none => simp [List.filterMap_cons, hf]
    | some f =>
      by_cases hrange : 1 ≤ f ∧ f ≤ R
      · by_cases hcore : isCore w
        · by_cases htr : trackedSet.contains w.id
          · have htr' : w.id ∈ trackedSet := by simpa using htr
            simp [List.filterMap_cons, hf, hrange, hcore, htr, htr']
          · have htr' : w.id ∉ trackedSet := by simpa using htr
            simp [List.filterMap_cons, hf, hrange, hcore, htr, htr']
        · by_cases htr : trackedSet.contains w.id
          · have htr' : w.id ∈ trackedSet := by simpa using htr
            simp [List.filterMap_cons, hf, hrange, hcore, htr, htr']
          · have htr' : w.id ∉ trackedSet := by simpa using htr
            simp [List.filterMap_cons, hf, hrange, hcore, htr, htr']
      · simp [List.filterMap_cons, hf, hrange]

/-- The partition loop started from empty lists produces exactly the three
declarative rank lists. -/
theorem partition_eq (trackedSet : List String) (words : List HskWord) :
    words.foldl (partitionStep trackedSet)
        { hsk16Ranks := [], hsk79Ranks := [], trackedRanks := [] }
      = { hsk16Ranks := coreRanksOf words,
          hsk79Ranks := extRanksOf words,
          trackedRanks := trackedRanksOf trackedSet words } := by
  rw [partition_foldl]
  simp

theorem mem_coreRanksOf {words : List HskWord} {r : Int}
    (h : r ∈ coreRanksOf words) : 1 ≤ r ∧ r ≤ R := by
  rw [coreRanksOf, List.mem_filterMap] at h
  obtain ⟨w, _, hw⟩ := h
  cases hf : w.frequency with
  | none => rw [hf] at hw; cases hw
  | some f =>
    rw [hf] at hw
    have hw' : (if (1 ≤ f ∧ f ≤ R) ∧ isCore w then some f else none) = some r := hw
    by_cases hc : (1 ≤ f ∧ f ≤ R) ∧ isCore w
    · rw [if_pos hc] at hw'
      obtain rfl : f = r := by injection hw'
      exact hc.1
    · rw [if_neg hc] at hw'; cases hw'

theorem mem_extRanksOf {words : List HskWord} {r : Int}
    (h : r ∈ extRanksOf words) : 1 ≤ r ∧ r ≤ R := by
  rw [extRanksOf, List.mem_filterMap] at h
  obtain ⟨w, _, hw⟩ := h
  cases hf : w.frequency with
  | none => rw [hf] at hw; cases hw
  | some f =>
    rw [hf] at hw
    have hw' : (if (1 ≤ f ∧ f ≤ R) ∧ ¬ isCore w then some f else none) = some r := hw
    by_cases hc : (1 ≤ f ∧ f ≤ R) ∧ ¬ isCore w
    · rw [if_pos hc] at hw'
      obtain rfl : f = r := by injection hw'
      exact hc.1
    · rw [if_neg hc] at hw'; cases hw'

theorem mem_trackedRanksOf {trackedSet : List String} {words : List HskWord} {r : Int}
    (h : r ∈ trackedRanksOf trackedSet words) : 1 ≤ r ∧ r ≤ R := by
  rw [trackedRanksOf, List.mem_filterMap] at h
  obtain ⟨w, _, hw⟩ := h
  cases hf : w.frequency with
  | none => rw [hf] at hw; cases hw
  | some f =>
    rw [hf] at hw
    have hw' : (if (1 ≤ f ∧ f ≤ R) ∧ trackedSet.contains w.id then some f else none) = some r := hw
    by_cases hc : (1 ≤ f ∧ f ≤ R) ∧ trackedSet.contains w.id
    · rw [if_pos hc] at hw'
      obtain rfl : f = r := by injection hw'
      exact hc.1
    · rw [if_neg hc] at hw'; cases hw'

theorem weightBelow_filterMap_cons_some {g : HskWord → Option Int}
    {w : HskWord} {f : Int} (ws : List HskWord) (n : Int) (h : g w = some f) :
    weightBelow (List.filterMap g (w :: ws)) n
      = (if f ≤ n then 1 / (f : ℚ) else 0) + weightBelow (List.filterMap g ws) n := by
  rw [List.filterMap_cons, h]
  exact weightBelow_cons f (List.filterMap g ws) n

theorem weightBelow_filterMap_cons_none {g : HskWord → Option Int}
    {w : HskWord} (ws : List HskWord) (n : Int) (h : g w = none) :
    weightBelow (List.filterMap g (w :: ws)) n
      = weightBelow (List.filterMap g ws) n := by
  rw [List.filterMap_cons, h]

/-- Per-query comparison: the tracked weighted sum never exceeds the combined
core + extended weighted sum, at every threshold `n`. -/
theorem trackedWeight_le (trackedSet : List String) (words : List HskWord) (n : Int) :
    weightBelow (trackedRanksOf trackedSet words) n
      ≤ weightBelow (coreRanksOf words) n + weightBelow (extRanksOf words) n := by
  induction words with
  | nil =>
    simp [coreRanksOf, extRanksOf, trackedRanksOf, weightBelow_nil]
  | cons w ws ih =>
    unfold coreRanksOf extRanksOf trackedRanksOf at ih ⊢
    cases hf : w.frequency with
    | none =>
      rw [weightBelow_filterMap_cons_none ws n (by simp [hf]),
          weightBelow_filterMap_cons_none ws n (by simp [hf]),
          weightBelow_filterMap_cons_none ws n (by simp [hf])]
      exact ih
    | some f =>
      by_cases hrange : 1 ≤ f ∧ f ≤ R
      · have hterm : (0 : ℚ) ≤ (if f ≤ n then 1 / (f : ℚ) else 0) := by
          have hf1 : (0 : ℚ) < (f : ℚ) := by exact_mod_cast hrange.1
          by_cases hfn : f ≤ n
          · rw [if_pos hfn]
            positivity
          · rw [if_neg hfn]
        by_cases hc : isCore w
        · have hcoreV : coreRanksOf [] = [] := rfl
          have h16 := weightBelow_filterMap_cons_some (g := fun w : HskWord =>
            match w.frequency with
            | some f => if (1 ≤ f ∧ f ≤ R) ∧ isCore w then some f else none
            | none => none) (w := w) (f := f) ws n (by simp [hf, hrange, hc])
          have h79 := weightBelow_filterMap_cons_none (g := fun w : HskWord =>
            match w.frequency with
            | some f => if (1 ≤ f ∧ f ≤ R) ∧ ¬ isCore w then some f else none
            | none => none) (w := w) ws n (by simp [hf, hrange, hc])
          rw [h16, h79]
          by_cases htr : trackedSet.contains w.id
          · have htrEq := weightBelow_filterMap_cons_some (g := fun w : HskWord =>
              match w.frequency with
              | some f => if (1 ≤ f ∧ f ≤ R) ∧ trackedSet.contains w.id then some f else none
              | none => none) (w := w) (f := f) ws n
              (by have htr' : w.id ∈ trackedSet := by simpa using htr
                  simp [hf, hrange, htr'])
            rw [htrEq]
            linarith
          · have htrEq := weightBelow_filterMap_cons_none (g := fun w : HskWord =>
              match w.frequency with
              | some f => if (1 ≤ f ∧ f ≤ R) ∧ trackedSet.contains w.id then some f else none
              | none => none) (w := w) ws n
              (by have htr' : w.id ∉ trackedSet := by simpa using htr
                  simp [hf, hrange, htr'])
            rw [htrEq]
            linarith
        · have h16 := weightBelow_filterMap_cons_none (g := fun w : HskWord =>
            match w.frequency with
            | some f => if (1 ≤ f ∧ f ≤ R) ∧ isCore w then some f else none
            | none => none) (w := w) ws n (by simp [hf, hrange, hc])
          have h79 := weightBelow_filterMap_cons_some (g := fun w : HskWord =>
            match w.frequency with
            | some f => if (1 ≤ f ∧ f ≤ R) ∧ ¬ isCore w then some f else none
            | none => none) (w := w) (f := f) ws n (by simp [hf, hrange, hc])
          rw [h16, h79]
          by_cases htr : trackedSet.contains w.id
          · have htrEq := weightBelow_filterMap_cons_some (g := fun w : HskWord =>
              match w.frequency with
              | some f => if (1 ≤ f ∧ f ≤ R) ∧ trackedSet.contains w.id then some f else none
              | none => none) (w := w) (f := f) ws n
              (by have htr' : w.id ∈ trackedSet := by simpa using htr
                  simp [hf, hrange, htr'])
            rw [htrEq]
            linarith
          · have htrEq := weightBelow_filterMap_cons_none (g := fun w : HskWord =>
              match w.frequency with
              | some f => if (1 ≤ f ∧ f ≤ R) ∧ trackedSet.contains w.id then some f else none
              | none => none) (w := w) ws n
              (by have htr' : w.id ∉ trackedSet := by simpa using htr
                  simp [hf, hrange, htr'])
            rw [htrEq]
            linarith
      · rw [weightBelow_filterMap_cons_none ws n (by simp [hf, hrange]),
            weightBelow_filterMap_cons_none ws n (by simp [hf, hrange]),
            weightBelow_filterMap_cons_none ws n (by simp [hf, hrange])]
        exact ih

/-! ### Harmonic numbers -/

theorem harmonicNumber_eq_harmonic (n : Int) :
    harmonicNumber n = harmonic n.toNat := by
  unfold harmonicNumber harmonic
  refine Finset.sum_congr rfl ?_
  intro k _
  rw [one_div]
  congr 1
  push_cast
  ring

theorem harmonicNumber_nonneg (n : Int) : 0 ≤ harmonicNumber n := by
  refine Finset.sum_nonneg ?_
  intro i _
  positivity

theorem harmonicNumber_mono {n m : Int} (h : n ≤ m) :
    harmonicNumber n ≤ harmonicNumber m := by
  unfold harmonicNumber
  refine Finset.sum_le_sum_of_subset_of_nonneg ?_ ?_
  · exact Finset.range_subset.mpr (by omega)
  · intro i _ _
    positivity

theorem harmonicNumber_pos (n : Int) (h : 1 ≤ n) : 0 < harmonicNumber n := by
  rw [harmonicNumber_eq_harmonic]
  exact harmonic_pos (by omega)

theorem H_R_pos : 0 < H_R := harmonicNumber_pos R (by norm_num [R])

theorem harmonic_two_mul_le (n : ℕ) : harmonic (2 * n) ≤ harmonic n + 1 := by
  rcases Nat.eq_zero_or_pos n with rfl | hn
  · simp [harmonic_zero]
  · have hsplit : harmonic (2 * n)
        = harmonic n + ∑ i ∈ Finset.Ico n (2 * n), ((i + 1 : ℕ) : ℚ)⁻¹ := by
      unfold harmonic
      rw [Finset.range_eq_Ico]
      exact (Finset.sum_Ico_consecutive _ (Nat.zero_le n) (by omega : n ≤ 2 * n)).symm
    rw [hsplit]
    have h1 : ∀ i ∈ Finset.Ico n (2 * n),
        ((i + 1 : ℕ) : ℚ)⁻¹ ≤ ((n + 1 : ℕ) : ℚ)⁻¹ := by
      intro i hi
      obtain ⟨hi1, _⟩ := Finset.mem_Ico.mp hi
      rw [← one_div, ← one_div]
      refine one_div_le_one_div_of_le ?_ ?_
      · positivity
      · exact_mod_cast Nat.succ_le_succ hi1
    have hbound : ∑ i ∈ Finset.Ico n (2 * n), ((i + 1 : ℕ) : ℚ)⁻¹ ≤ 1 := by
      calc ∑ i ∈ Finset.Ico n (2 * n), ((i + 1 : ℕ) : ℚ)⁻¹
          ≤ (Finset.Ico n (2 * n)).card • ((n + 1 : ℕ) : ℚ)⁻¹ :=
            Finset.sum_le_card_nsmul _ _ _ h1
        _ = (n : ℚ) * ((n + 1 : ℕ) : ℚ)⁻¹ := by
            rw [Nat.card_Ico, nsmul_eq_mul]
            have hcard : 2 * n - n = n := by omega
            rw [hcard]
        _ ≤ 1 := by
            rw [← one_div, mul_one_div, div_le_one (by positivity)]
            exact_mod_cast Nat.le_succ n
    linarith

theorem harmonic_mono {a b : ℕ} (h : a ≤ b) : harmonic a ≤ harmonic b := by
  unfold harmonic
  refine Finset.sum_le_sum_of_subset_of_nonneg (Finset.range_subset.mpr h) ?_
  intro i _ _
  positivity

theorem harmonic_pow_two_le (k : ℕ) : harmonic (2 ^ k) ≤ (k : ℚ) + 1 := by
  induction k with
  | zero =>
    have h1 : harmonic (2 ^ 0) = harmonic (0 + 1) := by norm_num
    rw [h1, harmonic_succ, harmonic_zero]
    norm_num
  | succ k ih =>
    have h2 : (2 : ℕ) ^ (k + 1) = 2 * 2 ^ k := by ring
    rw [h2]
    calc harmonic (2 * 2 ^ k) ≤ harmonic (2 ^ k) + 1 := harmonic_two_mul_le _
      _ ≤ ((k : ℚ) + 1) + 1 := by linarith
      _ = ((k + 1 : ℕ) : ℚ) + 1 := by push_cast; ring

theorem H_R_le_15 : H_R ≤ 15 := by
  have h1 : H_R = harmonic 10000 := by
    rw [H_R, harmonicNumber_eq_harmonic]
    rfl
  rw [h1]
  calc harmonic 10000 ≤ harmonic (2 ^ 14) := harmonic_mono (by norm_num)
    _ ≤ (14 : ℚ) + 1 := harmonic_pow_two_le 14
    _ = 15 := by norm_num

/-! ### Invariants and counters of the `computeFrequencyStats` loop -/

/-- Fallback bucket used for `getD` lookups. -/
def dfltBucket : FrequencyBucket :=
  { rangeLabel := "", min := 0, max := 0, hskCount := 0, trackedCount := 0 }

theorem stepStats_buckets_length (t : List String) (lv : Option Int)
    (acc : StatsAcc) (w : HskWord) :
    (stepStats t lv acc w).buckets.length = acc.buckets.length := by
  unfold stepStats
  by_cases h1 : w.id ∈ t <;>
  by_cases h2 : (lv == some 7 && w.hskLevel == some 7) = true <;>
  by_cases h3 : 0 ≤ bucketIndex (jsFreqVal w.frequency) ∧
      bucketIndex (jsFreqVal w.frequency) < (NUM_BUCKETS : Int) <;>
  by_cases h4 : jsFreqVal w.frequency ≤ TOP_N <;>
  simp [h1, h2, h3, h4, updateAt_length]

theorem stepStats_totalTracked (t : List String) (lv : Option Int)
    (acc : StatsAcc) (w : HskWord) :
    (stepStats t lv acc w).totalTracked
      = acc.totalTracked + (if t.contains w.id then 1 else 0) := by
  unfold stepStats
  by_cases h1 : w.id ∈ t <;>
  by_cases h2 : (lv == some 7 && w.hskLevel == some 7) = true <;>
  by_cases h3 : 0 ≤ bucketIndex (jsFreqVal w.frequency) ∧
      bucketIndex (jsFreqVal w.frequency) < (NUM_BUCKETS : Int) <;>
  by_cases h4 : jsFreqVal w.frequency ≤ TOP_N <;>
  simp [h1, h2, h3, h4]

theorem stepStats_topNTotal (t : List String) (lv : Option Int)
    (acc : StatsAcc) (w : HskWord) :
    (stepStats t lv acc w).topNTotal
      = acc.topNTotal + (if decide (jsFreqVal w.frequency ≤ TOP_N) then 1 else 0) := by
  unfold stepStats
  by_cases h1 : w.id ∈ t <;>
  by_cases h2 : (lv == some 7 && w.hskLevel == some 7) = true <;>
  by_cases h3 : 0 ≤ bucketIndex (jsFreqVal w.frequency) ∧
      bucketIndex (jsFreqVal w.frequency) < (NUM_BUCKETS : Int) <;>
  by_cases h4 : jsFreqVal w.frequency ≤ TOP_N <;>
  simp [h1, h2, h3, h4]

theorem stepStats_topNTracked (t : List String) (lv : Option Int)
    (acc : StatsAcc) (w : HskWord) :
    (stepStats t lv acc w).topNTracked
      = acc.topNTracked
        + (if (t.contains w.id && decide (jsFreqVal w.frequency ≤ TOP_N)) then 1 else 0) := by
  unfold stepStats
  by_cases h1 : w.id ∈ t <;>
  by_cases h2 : (lv == some 7 && w.hskLevel == some 7) = true <;>
  by_cases h3 : 0 ≤ bucketIndex (jsFreqVal w.frequency) ∧
      bucketIndex (jsFreqVal w.frequency) < (NUM_BUCKETS : Int) <;>
  by_cases h4 : jsFreqVal w.frequency ≤ TOP_N <;>
  simp [h1, h2, h3, h4]

theorem stepStats_topNTracked_le (t : List String) (lv : Option Int)
    (acc : StatsAcc) (w : HskWord) (h : acc.topNTracked ≤ acc.topNTotal) :
    (stepStats t lv acc w).topNTracked ≤ (stepStats t lv acc w).topNTotal := by
  rw [stepStats_topNTracked, stepStats_topNTotal]
  by_cases h1 : w.id ∈ t <;>
  by_cases h4 : jsFreqVal w.frequency ≤ TOP_N <;>
  simp [h1, h4] <;> omega

/-- The bucket-update function of one loop iteration. -/
def bumpBucket (isTracked : Bool) (b : FrequencyBucket) : FrequencyBucket :=
  { b with hskCount := b.hskCount + 1,
           trackedCount := b.trackedCount + (if isTracked then 1 else 0) }

theorem stepStats_buckets_eq (t : List String) (lv : Option Int)
    (acc : StatsAcc) (w : HskWord) :
    (stepStats t lv acc w).buckets
      = if 0 ≤ bucketIndex (jsFreqVal w.frequency) ∧
            bucketIndex (jsFreqVal w.frequency) < (NUM_BUCKETS : Int) then
          updateAt (bumpBucket (t.contains w.id))
            (bucketIndex (jsFreqVal w.frequency)).toNat acc.buckets
        else acc.buckets := by
  unfold stepStats bumpBucket
  by_cases h1 : w.id ∈ t <;>
  by_cases h2 : (lv == some 7 && w.hskLevel == some 7) = true <;>
  by_cases h3 : 0 ≤ bucketIndex (jsFreqVal w.frequency) ∧
      bucketIndex (jsFreqVal w.frequency) < (NUM_BUCKETS : Int) <;>
  by_cases h4 : jsFreqVal w.frequency ≤ TOP_N <;>
  simp [h1, h2, h3, h4]

theorem stepStats_tracked_le_hsk (t : List String) (lv : Option Int)
    (acc : StatsAcc) (w : HskWord)
    (h : ∀ b ∈ acc.buckets, b.trackedCount ≤ b.hskCount) :
    ∀ b ∈ (stepStats t lv acc w).buckets, b.trackedCount ≤ b.hskCount := by
  intro b hb
  rw [stepStats_buckets_eq] at hb
  by_cases h3 : 0 ≤ bucketIndex (jsFreqVal w.frequency) ∧
      bucketIndex (jsFreqVal w.frequency) < (NUM_BUCKETS : Int)
  · rw [if_pos h3] at hb
    refine updateAt_forall _ (fun b => b.trackedCount ≤ b.hskCount) ?_ _ _ h b hb
    intro c hc
    unfold bumpBucket
    by_cases hh : w.id ∈ t <;> simp [hh] <;> omega
  · rw [if_neg h3] at hb
    exact h b hb

theorem bucketIndex_lt (f : Int) : bucketIndex f < (NUM_BUCKETS : Int) := by
  have h := min_le_right ((f - 1).fdiv BUCKET_SIZE) ((NUM_BUCKETS : Int) - 1)
  unfold bucketIndex
  omega

theorem bucketIndex_nonneg_iff (f : Int) : 0 ≤ bucketIndex f ↔ 1 ≤ f := by
  have hBS : BUCKET_SIZE = 500 := rfl
  have hNB : ((NUM_BUCKETS : Int) - 1) = 19 := rfl
  unfold bucketIndex
  rw [Int.fdiv_eq_ediv _ (by rw [hBS]; norm_num)]
  constructor
  · intro h
    have h1 : (0 : Int) ≤ (f - 1) / BUCKET_SIZE := (le_min_iff.mp h).1
    have h2 := (Int.le_ediv_iff_mul_le (by rw [hBS]; norm_num : (0:Int) < BUCKET_SIZE)).mp h1
    omega
  · intro h
    refine le_min ?_ (by rw [hNB]; norm_num)
    exact (Int.le_ediv_iff_mul_le (by rw [hBS]; norm_num)).mpr (by omega)

theorem bucketIndex_eq_last_iff (f : Int) :
    bucketIndex f = (NUM_BUCKETS : Int) - 1 ↔ 9501 ≤ f := by
  have hBS : BUCKET_SIZE = 500 := rfl
  have hNB : ((NUM_BUCKETS : Int) - 1) = 19 := rfl
  unfold bucketIndex
  rw [Int.fdiv_eq_ediv _ (by rw [hBS]; norm_num)]
  constructor
  · intro h
    have h19 : (NUM_BUCKETS : Int) - 1 ≤ (f - 1) / BUCKET_SIZE := by
      by_contra hc
      push_neg at hc
      rw [min_eq_left (by omega)] at h
      omega
    have h2 := (Int.le_ediv_iff_mul_le (by rw [hBS]; norm_num : (0:Int) < BUCKET_SIZE)).mp h19
    rw [hNB] at h2
    rw [hBS] at h2
    omega
  · intro h
    have h19 : (NUM_BUCKETS : Int) - 1 ≤ (f - 1) / BUCKET_SIZE := by
      refine (Int.le_ediv_iff_mul_le (by rw [hBS]; norm_num)).mpr ?_
      rw [hNB, hBS]
      omega
    rw [min_eq_right h19]

theorem stepStats_hskSum (t : List String) (lv : Option Int)
    (acc : StatsAcc) (w : HskWord) (hlen : acc.buckets.length = NUM_BUCKETS) :
    ((stepStats t lv acc w).buckets.map (fun b => b.hskCount)).sum
      = (acc.buckets.map (fun b => b.hskCount)).sum
        + (if decide (1 ≤ jsFreqVal w.frequency) then 1 else 0) := by
  rw [stepStats_buckets_eq]
  by_cases h3 : 0 ≤ bucketIndex (jsFreqVal w.frequency) ∧
      bucketIndex (jsFreqVal w.frequency) < (NUM_BUCKETS : Int)
  · rw [if_pos h3]
    rw [updateAt_map_sum (bumpBucket (t.contains w.id)) (fun b => b.hskCount) 1
      (by intro b; unfold bumpBucket; simp) _ _]
    have hidx : (bucketIndex (jsFreqVal w.frequency)).toNat < acc.buckets.length := by
      rw [hlen]
      omega
    have h1 : 1 ≤ jsFreqVal w.frequency := (bucketIndex_nonneg_iff _).mp h3.1
    simp [hidx, h1]
  · rw [if_neg h3]
    have h1 : ¬ 1 ≤ jsFreqVal w.frequency := by
      intro hc
      exact h3 ⟨(bucketIndex_nonneg_iff _).mpr hc, bucketIndex_lt _⟩
    simp [h1]

theorem stepStats_lastBucket (t : List String) (lv : Option Int)
    (acc : StatsAcc) (w : HskWord) (hlen : acc.buckets.length = NUM_BUCKETS) :
    ((stepStats t lv acc w).buckets.getD (NUM_BUCKETS - 1) dfltBucket).hskCount
      = (acc.buckets.getD (NUM_BUCKETS - 1) dfltBucket).hskCount
        + (if decide (9501 ≤ jsFreqVal w.frequency) then 1 else 0) := by
  have hNB : NUM_BUCKETS = 20 := rfl
  rw [stepStats_buckets_eq]
  by_cases h3 : 0 ≤ bucketIndex (jsFreqVal w.frequency) ∧
      bucketIndex (jsFreqVal w.frequency) < (NUM_BUCKETS : Int)
  · rw [if_pos h3]
    have hj : NUM_BUCKETS - 1 < acc.buckets.length := by omega
    rw [updateAt_getD _ _ _ _ _ hj]
    by_cases he : (bucketIndex (jsFreqVal w.frequency)).toNat = NUM_BUCKETS - 1
    · rw [if_pos he]
      have h9501 : 9501 ≤ jsFreqVal w.frequency := by
        refine (bucketIndex_eq_last_iff _).mp ?_
        omega
      unfold bumpBucket
      simp [h9501]
    · rw [if_neg he]
      have h9501 : ¬ 9501 ≤ jsFreqVal w.frequency := by
        intro hc
        refine he ?_
        have := (bucketIndex_eq_last_iff (jsFreqVal w.frequency)).mpr hc
        omega
      simp [h9501]
  · rw [if_neg h3]
    have h9501 : ¬ 9501 ≤ jsFreqVal w.frequency := by
      intro hc
      refine h3 ⟨(bucketIndex_nonneg_iff _).mpr (by omega), bucketIndex_lt _⟩
    simp [h9501]

/-- The initial accumulator of `computeFrequencyStats` (fresh buckets, all
counters zero). -/
def initAcc : StatsAcc :=
  { buckets := initBuckets, totalTracked := 0, topNTotal := 0,
    topNTracked := 0, levelWords := 0, levelTracked := 0 }

theorem initBuckets_length : initBuckets.length = NUM_BUCKETS := by
  rfl

theorem foldl_buckets_length (t : List String) (lv : Option Int)
    (l : List HskWord) :
    (l.foldl (stepStats t lv) initAcc).buckets.length = NUM_BUCKETS := by
  refine foldl_inv (stepStats t lv) (fun acc => acc.buckets.length = NUM_BUCKETS)
    ?_ l initAcc initBuckets_length
  intro acc w h
  rw [stepStats_buckets_length]
  exact h

theorem computeFrequencyStats_topNTotal (words : List HskWord)
    (t : List String) (lv : Option Int) :
    (computeFrequencyStats words t lv).topNTotal
      = (scopeFilter lv words).countP
          (fun w => decide (jsFreqVal w.frequency ≤ TOP_N)) := by
  have h := foldl_count (stepStats t lv) (fun _ => True)
    (fun acc => acc.topNTotal)
    (fun w => decide (jsFreqVal w.frequency ≤ TOP_N))
    (fun _ _ _ => trivial)
    (fun acc w _ => stepStats_topNTotal t lv acc w)
    (scopeFilter lv words) initAcc trivial
  simpa [initAcc] using h

theorem computeFrequencyStats_topNTracked (words : List HskWord)
    (t : List String) (lv : Option Int) :
    (computeFrequencyStats words t lv).topNTracked
      = (scopeFilter lv words).countP
          (fun w => t.contains w.id && decide (jsFreqVal w.frequency ≤ TOP_N)) := by
  have h := foldl_count (stepStats t lv) (fun _ => True)
    (fun acc => acc.topNTracked)
    (fun w => t.contains w.id && decide (jsFreqVal w.frequency ≤ TOP_N))
    (fun _ _ _ => trivial)
    (fun acc w _ => stepStats_topNTracked t lv acc w)
    (scopeFilter lv words) initAcc trivial
  simpa [initAcc] using h

theorem computeFrequencyStats_hskSum (words : List HskWord)
    (t : List String) (lv : Option Int) :
    ((computeFrequencyStats words t lv).buckets.map (fun b => b.hskCount)).sum
      = (scopeFilter lv words).countP
          (fun w => decide (1 ≤ jsFreqVal w.frequency)) := by
  have h := foldl_count (stepStats t lv)
    (fun acc => acc.buckets.length = NUM_BUCKETS)
    (fun acc => (acc.buckets.map (fun b => b.hskCount)).sum)
    (fun w => decide (1 ≤ jsFreqVal w.frequency))
    (fun acc w hq => by
      show (stepStats t lv acc w).buckets.length = NUM_BUCKETS
      rw [stepStats_buckets_length]
      exact hq)
    (fun acc w hq => stepStats_hskSum t lv acc w hq)
    (scopeFilter lv words) initAcc initBuckets_length
  have hinit : ((initAcc.buckets.map (fun b => b.hskCount)).sum) = 0 := by rfl
  simpa [hinit] using h

theorem computeFrequencyStats_lastBucket (words : List HskWord)
    (t : List String) (lv : Option Int) :
    ((computeFrequencyStats words t lv).buckets.getD (NUM_BUCKETS - 1) dfltBucket).hskCount
      = (scopeFilter lv words).countP
          (fun w => decide (9501 ≤ jsFreqVal w.frequency)) := by
  have h := foldl_count (stepStats t lv)
    (fun acc => acc.buckets.length = NUM_BUCKETS)
    (fun acc => (acc.buckets.getD (NUM_BUCKETS - 1) dfltBucket).hskCount)
    (fun w => decide (9501 ≤ jsFreqVal w.frequency))
    (fun acc w hq => by
      show (stepStats t lv acc w).buckets.length = NUM_BUCKETS
      rw [stepStats_buckets_length]
      exact hq)
    (fun acc w hq => stepStats_lastBucket t lv acc w hq)
    (scopeFilter lv words) initAcc initBuckets_length
  have hinit : ((initAcc.buckets[NUM_BUCKETS - 1]?.getD dfltBucket).hskCount) = 0 := by rfl
  simpa [hinit] using h

theorem computeFrequencyStats_tracked_le_total (words : List HskWord)
    (t : List String) (lv : Option Int) :
    (computeFrequencyStats words t lv).topNTracked
      ≤ (computeFrequencyStats words t lv).topNTotal := by
  have h := foldl_inv (stepStats t lv)
    (fun acc => acc.topNTracked ≤ acc.topNTotal)
    (fun acc w hq => stepStats_topNTracked_le t lv acc w hq)
    (scopeFilter lv words) initAcc (by simp [initAcc])
  exact h

theorem computeFrequencyStats_coveragePercent (words : List HskWord)
    (t : List String) (lv : Option Int) :
    (computeFrequencyStats words t lv).coveragePercent
      = if 0 < (computeFrequencyStats words t lv).topNTotal then
          round (((computeFrequencyStats words t lv).topNTracked : ℚ)
            / ((computeFrequencyStats words t lv).topNTotal : ℚ) * 100)
        else 0 := rfl

theorem roundRat_mono {a b : ℚ} (h : a ≤ b) : round a ≤ round b := by
  rw [round_eq, round_eq]
  exact Int.floor_mono (by linarith)

/-! ### Shape of `computeCoverageCurve` -/

theorem lastOrZero_buildPrefixSums (ranks : List Int) :
    lastOrZero (buildPrefixSums ranks).2 = totalWeight ranks := by
  have hperm : (ranks.mergeSort (fun a b => decide (a ≤ b))).Perm ranks :=
    List.mergeSort_perm ranks _
  have h2 : (buildPrefixSums ranks).2
      = prefixLoop 0 (ranks.mergeSort (fun a b => decide (a ≤ b))) := rfl
  rw [h2]
  set sorted := ranks.mergeSort (fun a b => decide (a ≤ b)) with hs
  unfold lastOrZero
  have hlen : (prefixLoop 0 sorted).length = sorted.length := prefixLoop_length _ _
  by_cases h : 0 < (prefixLoop 0 sorted).length
  · rw [if_pos h]
    have hidx : sorted.length - 1 < sorted.length := by omega
    have hget := prefixLoop_getElem? sorted 0 (sorted.length - 1) hidx
    rw [List.getD_eq_getElem?_getD, hlen, hget]
    have htake : sorted.length - 1 + 1 = sorted.length := by omega
    rw [htake, List.take_length]
    rw [totalWeight_perm hperm]
    simp
  · rw [if_neg h]
    have hnil : ranks = [] := by
      have := hperm.length_eq
      refine List.eq_nil_of_length_eq_zero ?_
      omega
    rw [hnil, totalWeight_nil]

theorem computeCoverageCurve_points (words : List HskWord) (t : List String) :
    (computeCoverageCurve words t).points
      = sampleRanks.map (fun n =>
          { rank := n
            zipfPercent := if n == 0 then 0 else harmonicNumber n / H_R * 100
            hsk16Percent := weightBelow (coreRanksOf words) n / H_R * 100
            hskAllPercent := (weightBelow (coreRanksOf words) n
              + weightBelow (extRanksOf words) n) / H_R * 100
            trackedPercent :=
              weightBelow (trackedRanksOf t words) n / H_R * 100 : CoveragePoint }) := by
  unfold computeCoverageCurve
  rw [partition_eq]
  refine List.map_congr_left ?_
  intro n _
  have hcore := cumulativeAt_eq_weightBelow (coreRanksOf words) n
    (fun r hr => by have := mem_coreRanksOf hr; omega)
  have hext := cumulativeAt_eq_weightBelow (extRanksOf words) n
    (fun r hr => by have := mem_extRanksOf hr; omega)
  have htr := cumulativeAt_eq_weightBelow (trackedRanksOf t words) n
    (fun r hr => by have := mem_trackedRanksOf hr; omega)
  simp only [hcore, hext, htr]

theorem computeCoverageCurve_totals (words : List HskWord) (t : List String) :
    (computeCoverageCurve words t).totalHsk16Percent
        = roundTenth (totalWeight (coreRanksOf words) / H_R)
    ∧ (computeCoverageCurve words t).totalHskAllPercent
        = roundTenth ((totalWeight (coreRanksOf words)
            + totalWeight (extRanksOf words)) / H_R)
    ∧ (computeCoverageCurve words t).totalTrackedPercent
        = roundTenth (totalWeight (trackedRanksOf t words) / H_R) := by
  unfold computeCoverageCurve
  rw [partition_eq]
  simp [lastOrZero_buildPrefixSums]

theorem trackedTotalWeight_le (t : List String) (words : List HskWord) :
    totalWeight (trackedRanksOf t words)
      ≤ totalWeight (coreRanksOf words) + totalWeight (extRanksOf words) := by
  have h := trackedWeight_le t words R
  rw [weightBelow_eq_totalWeight (fun r hr => (mem_trackedRanksOf hr).2),
      weightBelow_eq_totalWeight (fun r hr => (mem_coreRanksOf hr).2),
      weightBelow_eq_totalWeight (fun r hr => (mem_extRanksOf hr).2)] at h
  exact h

/-! ### Percentage helpers -/

theorem percent_nonneg {x : ℚ} (h : 0 ≤ x) : 0 ≤ x / H_R * 100 := by
  have hp := H_R_pos
  exact mul_nonneg (div_nonneg h (le_of_lt hp)) (by norm_num)

theorem percent_mono {x y : ℚ} (h : x ≤ y) : x / H_R * 100 ≤ y / H_R * 100 := by
  have hp := H_R_pos
  have hinv : (0:ℚ) ≤ H_R⁻¹ := le_of_lt (inv_pos.mpr hp)
  have h1 : x / H_R ≤ y / H_R := by
    rw [div_eq_mul_inv, div_eq_mul_inv]
    exact mul_le_mul_of_nonneg_right h hinv
  exact mul_le_mul_of_nonneg_right h1 (by norm_num)

theorem percent_le_100 {x : ℚ} (h : x ≤ H_R) : x / H_R * 100 ≤ 100 := by
  have hp := H_R_pos
  have h1 : x / H_R ≤ 1 := (div_le_one hp).mpr h
  have h2 := mul_le_mul_of_nonneg_right h1 (show (0:ℚ) ≤ 100 by norm_num)
  simpa using h2

theorem roundTenth_nonneg {x : ℚ} (h : 0 ≤ x) : 0 ≤ roundTenth x := by
  unfold roundTenth
  have h0 : (0:ℚ) ≤ x * 1000 := by nlinarith
  have h1 : (0:ℤ) ≤ round (x * 1000) := by
    have := roundRat_mono h0
    simpa using this
  have h2 : (0:ℚ) ≤ ((round (x * 1000) : ℤ) : ℚ) := by exact_mod_cast h1
  exact div_nonneg h2 (by norm_num)

theorem roundTenth_mono {x y : ℚ} (h : x ≤ y) : roundTenth x ≤ roundTenth y := by
  unfold roundTenth
  have h1 : round (x * 1000) ≤ round (y * 1000) := roundRat_mono (by nlinarith)
  have h2 : ((round (x * 1000) : ℤ) : ℚ) ≤ ((round (y * 1000) : ℤ) : ℚ) := by
    exact_mod_cast h1
  linarith

/-! ### Concrete inputs used in the claims -/

def wordA : HskWord :=
  { id := "a", character := "", pinyin := "", meaning := "",
    hskLevel := some 1, frequency := some 1 }

def wordB : HskWord :=
  { id := "b", character := "", pinyin := "", meaning := "",
    hskLevel := some 1, frequency := some 501 }

def wordC : HskWord :=
  { id := "c", character := "", pinyin := "", meaning := "",
    hskLevel := some 1, frequency := some 1000000 }

def wordNullFreq : HskWord :=
  { id := "a", character := "", pinyin := "", meaning := "",
    hskLevel := some 1, frequency := none }

def wordNullLevel : HskWord :=
  { id := "a", character := "", pinyin := "", meaning := "",
    hskLevel := none, frequency := some 1 }

/-- Sixteen distinct words sharing frequency rank 1 (ranks are not unique). -/
def dupWords : List HskWord :=
  (List.range 16).map fun i =>
    { id := s!"w{i}", character := "", pinyin := "", meaning := "",
      hskLevel := some 1, frequency := some 1 }

/-- The all-zero fallback coverage point. -/
def dfltPoint : CoveragePoint :=
  { rank := 0, zipfPercent := 0, hsk16Percent := 0,
    hskAllPercent := 0, trackedPercent := 0 }

/-! ### Claim theorems -/

/-- C5: building the prefix-sum structure over a list of positive ranks and
querying it through `cumulativeAt` returns exactly the sum of `1/r` over all
entries `r ≤ n`, and 0 when no entry is `≤ n` (in particular for `n ≤ 0` or
an empty list); the binary-search loop is a total function, so it terminates
on every input. -/
theorem cumulativeAt_prefix_sum_query (ranks : List Int) (n : Int)
    (hpos : ∀ r ∈ ranks, 0 < r) :
    cumulativeAt (buildPrefixSums ranks).1 (buildPrefixSums ranks).2 n
        = ((ranks.filter (fun r => decide (r ≤ n))).map
            (fun r : Int => 1 / (r : ℚ))).sum
    ∧ ((∀ r ∈ ranks, ¬ r ≤ n) →
        cumulativeAt (buildPrefixSums ranks).1 (buildPrefixSums ranks).2 n = 0) := by
  have hmain := cumulativeAt_eq_weightBelow ranks n hpos
  constructor
  · exact hmain
  · intro h
    rw [hmain]
    have hfil : ranks.filter (fun r => decide (r ≤ n)) = [] := by
      refine List.filter_eq_nil_iff.mpr ?_
      intro a ha
      simpa using h a ha
    unfold weightBelow
    rw [hfil, totalWeight_nil]

theorem cumulativeAt_prefix_sum_query_witness :
    cumulativeAt (buildPrefixSums [3, 1, 2]).1 (buildPrefixSums [3, 1, 2]).2 2
        = ((([3, 1, 2] : List Int).filter (fun r => decide (r ≤ (2 : Int)))).map
            (fun r : Int => 1 / (r : ℚ))).sum
    ∧ ((∀ r ∈ ([3, 1, 2] : List Int), ¬ r ≤ (2 : Int)) →
        cumulativeAt (buildPrefixSums [3, 1, 2]).1 (buildPrefixSums [3, 1, 2]).2 2 = 0) :=
  cumulativeAt_prefix_sum_query [3, 1, 2] 2 (by decide)

/-- C7: in every `FrequencyStats` result, every bucket satisfies
`trackedCount ≤ hskCount`. -/
theorem bucket_tracked_le_hskCount (words : List HskWord) (t : List String)
    (lv : Option Int) :
    (computeFrequencyStats words t lv).buckets.Forall
      (fun b => b.trackedCount ≤ b.hskCount) := by
  rw [List.forall_iff_forall_mem]
  have h := foldl_inv (stepStats t lv)
    (fun acc => ∀ b ∈ acc.buckets, b.trackedCount ≤ b.hskCount)
    (fun acc w hq => stepStats_tracked_le_hsk t lv acc w hq)
    (scopeFilter lv words) initAcc (by decide)
  exact h

/-- C8: `computeFrequencyStats` is total and its division is guarded:
`topNTotal = 0` forces `coveragePercent = 0`, and on empty input it returns
all-zero counts, `coveragePercent = 0`, and 20 buckets with zero counts. -/
theorem freqStats_guard_and_empty :
    (∀ (words : List HskWord) (t : List String) (lv : Option Int),
        (computeFrequencyStats words t lv).topNTotal = 0 →
        (computeFrequencyStats words t lv).coveragePercent = 0)
    ∧ (computeFrequencyStats [] [] none).totalWords = 0
    ∧ (computeFrequencyStats [] [] none).totalTracked = 0
    ∧ (computeFrequencyStats [] [] none).topNTotal = 0
    ∧ (computeFrequencyStats [] [] none).topNTracked = 0
    ∧ (computeFrequencyStats [] [] none).coveragePercent = 0
    ∧ (computeFrequencyStats [] [] none).buckets.length = 20
    ∧ (computeFrequencyStats [] [] none).buckets.Forall
        (fun b => b.hskCount = 0 ∧ b.trackedCount = 0) := by
  refine ⟨?_, by decide, by decide, by decide, by decide, by decide, by decide, ?_⟩
  · intro words t lv h
    rw [computeFrequencyStats_coveragePercent, h]
    norm_num
  · rw [List.forall_iff_forall_mem]
    decide

theorem freqStats_guard_and_empty_witness :
    (computeFrequencyStats [] [] none).coveragePercent = 0 :=
  freqStats_guard_and_empty.1 [] [] none (by decide)

/-- C1 counterexample: with words a (freq 1), b (freq 501), c (freq 1000000)
and tracked {"a"}, bucket 19 has `hskCount = 1`: word "c" is clamped into the
last bucket by the `Math.min(..., NUM_BUCKETS - 1)` clamp, not excluded from
bucket placement as the claim states. -/
theorem freqStats_overflow_clamped_cex :
    ((computeFrequencyStats [wordA, wordB, wordC] ["a"] none).buckets.getD 19
        dfltBucket).hskCount = 1
    ∧ (((computeFrequencyStats [wordA, wordB, wordC] ["a"] none).buckets.map
        (fun b => b.hskCount)).sum = 3) := by
  constructor
  · decide
  · decide

/-- C1 amended: an in-scope word with a frequency value below 1 (including a
null frequency, which coerces to 0) is excluded from every bucket, while a
word with frequency above 10000 is clamped into the last bucket (index 19)
rather than excluded: the bucket `hskCount`s sum to the number of in-scope
words with frequency value ≥ 1, and bucket 19 counts exactly the in-scope
words with frequency value ≥ 9501. In the concrete scenario, bucket 0 has
`hskCount = 1, trackedCount = 1`, bucket 1 has `hskCount = 1,
trackedCount = 0`, word "c" lands in bucket 19, and `totalWords = 3`,
`totalTracked = 1`. -/
theorem freqStats_bucket_placement :
    (∀ (words : List HskWord) (t : List String) (lv : Option Int),
        ((computeFrequencyStats words t lv).buckets.map (fun b => b.hskCount)).sum
          = (scopeFilter lv words).countP
              (fun w => decide (1 ≤ jsFreqVal w.frequency))
        ∧ ((computeFrequencyStats words t lv).buckets.getD (NUM_BUCKETS - 1)
              dfltBucket).hskCount
          = (scopeFilter lv words).countP
              (fun w => decide (9501 ≤ jsFreqVal w.frequency)))
    ∧ ((computeFrequencyStats [wordA, wordB, wordC] ["a"] none).buckets.getD 0
          dfltBucket).hskCount = 1
    ∧ ((computeFrequencyStats [wordA, wordB, wordC] ["a"] none).buckets.getD 0
          dfltBucket).trackedCount = 1
    ∧ ((computeFrequencyStats [wordA, wordB, wordC] ["a"] none).buckets.getD 1
          dfltBucket).hskCount = 1
    ∧ ((computeFrequencyStats [wordA, wordB, wordC] ["a"] none).buckets.getD 1
          dfltBucket).trackedCount = 0
    ∧ ((computeFrequencyStats [wordA, wordB, wordC] ["a"] none).buckets.getD 19
          dfltBucket).hskCount = 1
    ∧ (computeFrequencyStats [wordA, wordB, wordC] ["a"] none).totalWords = 3
    ∧ (computeFrequencyStats [wordA, wordB, wordC] ["a"] none).totalTracked = 1 := by
  refine ⟨?_, by decide, by decide, by decide, by decide, by decide, by decide, by decide⟩
  intro words t lv
  exact ⟨computeFrequencyStats_hskSum words t lv,
    computeFrequencyStats_lastBucket words t lv⟩

/-- C2 counterexample: a word with null `hskLevel` and frequency 1 is pushed
onto the extended-tier list `hsk79Ranks` by the `else` branch, whereas the
claim states it enters neither tier list. -/
theorem partition_nullLevel_extended_cex :
    ([wordNullLevel].foldl (partitionStep [])
        { hsk16Ranks := [], hsk79Ranks := [], trackedRanks := [] }).hsk79Ranks = [1]
    ∧ ([wordNullLevel].foldl (partitionStep [])
        { hsk16Ranks := [], hsk79Ranks := [], trackedRanks := [] }).hsk16Ranks = [] := by
  constructor
  · decide
  · decide

/-- C2 amended: for every word with a non-null frequency in `[1, 10000]`, its
rank enters the core-tier list exactly when `hskLevel` is non-null and ≤ 6,
and enters the extended-tier list exactly otherwise — that is, when
`hskLevel` is null **or** ≥ 7 (a null-`hskLevel` word goes to the extended
list, not to neither); it enters the tracked list exactly when its id is
tracked; words with null or out-of-range frequency contribute to no list. -/
theorem partition_characterization (t : List String) (words : List HskWord) :
    words.foldl (partitionStep t)
        { hsk16Ranks := [], hsk79Ranks := [], trackedRanks := [] }
      = { hsk16Ranks := coreRanksOf words,
          hsk79Ranks := extRanksOf words,
          trackedRanks := trackedRanksOf t words } :=
  partition_eq t words

/-- C3 counterexample: an in-scope word (hskLevel 1) with null frequency is
counted by `topNTotal` (the JS comparison `null <= 5000` coerces null to 0
and is true), whereas the claim says it contributes to neither top-N count:
the number of in-scope words with a non-null frequency ≤ 5000 is 0, but the
code returns `topNTotal = 1`. -/
theorem freqStats_nullFreq_topN_cex :
    (computeFrequencyStats [wordNullFreq] [] none).topNTotal = 1
    ∧ ([wordNullFreq].countP
        (fun w => w.frequency.elim false (fun f => decide (f ≤ TOP_N)))) = 0 := by
  constructor
  · decide
  · decide

/-- C3 amended: an in-scope word with null frequency contributes to no bucket
(its coerced value 0 yields bucket index −1), but it does count toward
`topNTotal`/`topNTracked`, because the runtime comparison `null <= 5000`
coerces null to 0: the top-N counts count exactly the in-scope words whose
coerced frequency value (`null` ↦ 0) is at most 5000; no fault is raised on
any input (the function is total). -/
theorem freqStats_topN_buckets_characterization (words : List HskWord)
    (t : List String) (lv : Option Int) :
    (computeFrequencyStats words t lv).topNTotal
        = (scopeFilter lv words).countP
            (fun w => decide (jsFreqVal w.frequency ≤ TOP_N))
    ∧ (computeFrequencyStats words t lv).topNTracked
        = (scopeFilter lv words).countP
            (fun w => t.contains w.id && decide (jsFreqVal w.frequency ≤ TOP_N))
    ∧ ((computeFrequencyStats words t lv).buckets.map (fun b => b.hskCount)).sum
        = (scopeFilter lv words).countP
            (fun w => decide (1 ≤ jsFreqVal w.frequency)) :=
  ⟨computeFrequencyStats_topNTotal words t lv,
   computeFrequencyStats_topNTracked words t lv,
   computeFrequencyStats_hskSum words t lv⟩

/-- C6: along the points list of `computeCoverageCurve`, each of the four
percentage fields is non-decreasing as the sampled rank increases. -/
theorem coverage_points_monotone (words : List HskWord) (t : List String) :
    (computeCoverageCurve words t).points.Pairwise (fun p q =>
      p.zipfPercent ≤ q.zipfPercent ∧ p.hsk16Percent ≤ q.hsk16Percent
      ∧ p.hskAllPercent ≤ q.hskAllPercent
      ∧ p.trackedPercent ≤ q.trackedPercent) := by
  rw [computeCoverageCurve_points, List.pairwise_map]
  have hsample : sampleRanks.Pairwise (fun a b : Int => a ≤ b) := by
    have h : sampleRanks.Pairwise (fun a b : Int => a < b) := by decide
    exact h.imp (fun hab => le_of_lt hab)
  refine hsample.imp ?_
  intro a b hab
  have hcore : ∀ r ∈ coreRanksOf words, 0 < r :=
    fun r hr => by have := mem_coreRanksOf hr; omega
  have hext : ∀ r ∈ extRanksOf words, 0 < r :=
    fun r hr => by have := mem_extRanksOf hr; omega
  have htr : ∀ r ∈ trackedRanksOf t words, 0 < r :=
    fun r hr => by have := mem_trackedRanksOf hr; omega
  refine ⟨?_, ?_, ?_, ?_⟩
  · show (if a == 0 then 0 else harmonicNumber a / H_R * 100)
      ≤ (if b == 0 then 0 else harmonicNumber b / H_R * 100)
    by_cases hb0 : b = 0
    · by_cases ha0 : a = 0
      · simp [ha0, hb0]
      · have hharm : harmonicNumber a = 0 := by
          unfold harmonicNumber
          have hto : a.toNat = 0 := by omega
          rw [hto]
          simp
        simp [ha0, hb0, hharm]
    · by_cases ha0 : a = 0
      · simp only [show (a == 0) = true by simp [ha0], if_true,
          show (b == 0) = false by simp [hb0], Bool.false_eq_true, if_false]
        exact percent_nonneg (harmonicNumber_nonneg b)
      · simp only [show (a == 0) = false by simp [ha0],
          show (b == 0) = false by simp [hb0], Bool.false_eq_true, if_false]
        exact percent_mono (harmonicNumber_mono hab)
  · exact percent_mono (weightBelow_mono hcore hab)
  · exact percent_mono (add_le_add (weightBelow_mono hcore hab)
      (weightBelow_mono hext hab))
  · exact percent_mono (weightBelow_mono htr hab)

/-- C9: at every sampled point, `trackedPercent ≤ hskAllPercent`, and in the
summary `totalTrackedPercent ≤ totalHskAllPercent`: every tracked rank also
occurs in exactly one of the two tier lists, so the tracked cumulative weight
never exceeds the combined one, and the one-decimal rounding preserves the
inequality. -/
theorem tracked_le_hskAll_percent (words : List HskWord) (t : List String) :
    (computeCoverageCurve words t).points.Forall
        (fun p => p.trackedPercent ≤ p.hskAllPercent)
    ∧ (computeCoverageCurve words t).totalTrackedPercent
        ≤ (computeCoverageCurve words t).totalHskAllPercent := by
  constructor
  · rw [List.forall_iff_forall_mem]
    intro p hp
    rw [computeCoverageCurve_points] at hp
    rw [List.mem_map] at hp
    obtain ⟨n, hn, rfl⟩ := hp
    exact percent_mono (trackedWeight_le t words n)
  · obtain ⟨h16, hAll, htr⟩ := computeCoverageCurve_totals words t
    rw [hAll, htr]
    refine roundTenth_mono ?_
    have h := trackedTotalWeight_le t words
    have hp := H_R_pos
    rw [div_eq_mul_inv, div_eq_mul_inv]
    exact mul_le_mul_of_nonneg_right h (le_of_lt (inv_pos.mpr hp))

/-- C10: the points of `computeCoverageCurve` have strictly increasing ranks;
the first point has rank 0 with all four percentages equal to 0; the last
point has rank 10000 with `zipfPercent = 100` (the harmonic number of 10000
divided by itself). -/
theorem coverage_endpoints (words : List HskWord) (t : List String) :
    (computeCoverageCurve words t).points.Pairwise (fun p q => p.rank < q.rank)
    ∧ ((computeCoverageCurve words t).points.head?).map (fun p =>
        (p.rank, p.zipfPercent, p.hsk16Percent, p.hskAllPercent, p.trackedPercent))
      = some (0, 0, 0, 0, 0)
    ∧ ((computeCoverageCurve words t).points.getLast?).map
        (fun p => (p.rank, p.zipfPercent)) = some (10000, 100) := by
  have hcore : ∀ r ∈ coreRanksOf words, 0 < r :=
    fun r hr => by have := mem_coreRanksOf hr; omega
  have hext : ∀ r ∈ extRanksOf words, 0 < r :=
    fun r hr => by have := mem_extRanksOf hr; omega
  have htr : ∀ r ∈ trackedRanksOf t words, 0 < r :=
    fun r hr => by have := mem_trackedRanksOf hr; omega
  refine ⟨?_, ?_, ?_⟩
  · rw [computeCoverageCurve_points, List.pairwise_map]
    have h : sampleRanks.Pairwise (fun a b : Int => a < b) := by decide
    exact h.imp (fun hab => hab)
  · rw [computeCoverageCurve_points, List.head?_map]
    have hh : sampleRanks.head? = some 0 := by decide
    rw [hh, Option.map_some', Option.map_some']
    have hz : ((0 : Int) == 0) = true := by decide
    simp only [hz, if_true]
    rw [weightBelow_nonpos_eq_zero hcore le_rfl,
        weightBelow_nonpos_eq_zero hext le_rfl,
        weightBelow_nonpos_eq_zero htr le_rfl]
    norm_num
  · rw [computeCoverageCurve_points, List.getLast?_map]
    have hl : sampleRanks.getLast? = some 10000 := by decide
    rw [hl, Option.map_some']
    have hz : ((10000 : Int) == 0) = false := by decide
    simp only [hz, Bool.false_eq_true, if_false]
    have hH : harmonicNumber 10000 = H_R := rfl
    rw [hH, div_self (ne_of_gt H_R_pos)]
    norm_num

/-- C4 counterexample: with sixteen distinct words all of frequency rank 1
(hskLevel 1) and an empty tracked set, the point sampled at rank 50 has
`hsk16Percent = 16 / H(10000) × 100 > 100`, because duplicate ranks inflate
the cumulative weight beyond the harmonic normaliser `H(10000) < 16`; so not
every percentage field lies in `[0, 100]`. -/
theorem curve_percent_above_100_cex :
    100 < ((computeCoverageCurve dupWords []).points.getD 1 dfltPoint).hsk16Percent := by
  rw [computeCoverageCurve_points]
  rw [List.getD_eq_getElem?_getD, List.getElem?_map]
  have h50 : sampleRanks[1]? = some 50 := by decide
  rw [h50, Option.map_some']
  simp only [Option.getD_some]
  show (100 : ℚ) < weightBelow (coreRanksOf dupWords) 50 / H_R * 100
  have hlist : coreRanksOf dupWords
      = [1, 1, 1, 1, 1, 1, 1, 1, 1, 1, 1, 1, 1, 1, 1, 1] := by decide
  have hw : weightBelow (coreRanksOf dupWords) 50 = 16 := by
    rw [hlist]
    norm_num [weightBelow_cons, weightBelow_nil]
  rw [hw]
  have h15 := H_R_le_15
  have hp := H_R_pos
  rw [div_mul_eq_mul_div, lt_div_iff₀ hp]
  linarith

/-- C4 amended: `coveragePercent` always lies in `[0, 100]`; every sampled
point has `zipfPercent ∈ [0, 100]` and non-negative `hsk16Percent`,
`hskAllPercent`, `trackedPercent`; the three summary percentages are
non-negative. The weighted coverage percentages are **not** bounded above by
100 in general: duplicate frequency ranks can push the cumulative weight
above `H(10000)` (see the counterexample). -/
theorem percent_bounds (words : List HskWord) (t : List String) (lv : Option Int) :
    (0 ≤ (computeFrequencyStats words t lv).coveragePercent
      ∧ (computeFrequencyStats words t lv).coveragePercent ≤ 100)
    ∧ (computeCoverageCurve words t).points.Forall (fun p =>
        (0 ≤ p.zipfPercent ∧ p.zipfPercent ≤ 100)
        ∧ 0 ≤ p.hsk16Percent ∧ 0 ≤ p.hskAllPercent ∧ 0 ≤ p.trackedPercent)
    ∧ 0 ≤ (computeCoverageCurve words t).totalHsk16Percent
    ∧ 0 ≤ (computeCoverageCurve words t).totalHskAllPercent
    ∧ 0 ≤ (computeCoverageCurve words t).totalTrackedPercent := by
  have hcore : ∀ r ∈ coreRanksOf words, 0 < r :=
    fun r hr => by have := mem_coreRanksOf hr; omega
  have hext : ∀ r ∈ extRanksOf words, 0 < r :=
    fun r hr => by have := mem_extRanksOf hr; omega
  have htr : ∀ r ∈ trackedRanksOf t words, 0 < r :=
    fun r hr => by have := mem_trackedRanksOf hr; omega
  obtain ⟨h16, hAll, htrTot⟩ := computeCoverageCurve_totals words t
  refine ⟨?_, ?_, ?_, ?_, ?_⟩
  · have hle := computeFrequencyStats_tracked_le_total words t lv
    rw [computeFrequencyStats_coveragePercent]
    by_cases hpos : 0 < (computeFrequencyStats words t lv).topNTotal
    · rw [if_pos hpos]
      have hb : (0:ℚ) < ((computeFrequencyStats words t lv).topNTotal : ℚ) := by
        exact_mod_cast hpos
      have hratio1 : (0:ℚ) ≤ ((computeFrequencyStats words t lv).topNTracked : ℚ)
          / ((computeFrequencyStats words t lv).topNTotal : ℚ) * 100 := by
        positivity
      have hratio2 : ((computeFrequencyStats words t lv).topNTracked : ℚ)
          / ((computeFrequencyStats words t lv).topNTotal : ℚ) * 100 ≤ 100 := by
        have h1 : ((computeFrequencyStats words t lv).topNTracked : ℚ)
            / ((computeFrequencyStats words t lv).topNTotal : ℚ) ≤ 1 :=
          (div_le_one hb).mpr (by exact_mod_cast hle)
        have h2 := mul_le_mul_of_nonneg_right h1 (show (0:ℚ) ≤ 100 by norm_num)
        simpa using h2
      constructor
      · have h := roundRat_mono hratio1
        simpa [round_zero] using h
      · have h := roundRat_mono hratio2
        have h100 : round (100 : ℚ) = 100 := by norm_num
        rw [h100] at h
        exact h
    · rw [if_neg hpos]
      norm_num
  · rw [List.forall_iff_forall_mem]
    intro p hp
    rw [computeCoverageCurve_points] at hp
    rw [List.mem_map] at hp
    obtain ⟨n, hn, rfl⟩ := hp
    have hn10 : n ≤ (10000 : Int) := by
      have hall : ∀ m ∈ sampleRanks, m ≤ (10000 : Int) := by decide
      exact hall n hn
    refine ⟨⟨?_, ?_⟩, ?_, ?_, ?_⟩
    · show (0:ℚ) ≤ (if n == 0 then 0 else harmonicNumber n / H_R * 100)
      by_cases hz : n = 0
      · simp [hz]
      · simp only [show (n == 0) = false by simp [hz], Bool.false_eq_true, if_false]
        exact percent_nonneg (harmonicNumber_nonneg n)
    · show (if n == 0 then 0 else harmonicNumber n / H_R * 100) ≤ 100
      by_cases hz : n = 0
      · simp [hz]
      · simp only [show (n == 0) = false by simp [hz], Bool.false_eq_true, if_false]
        exact percent_le_100 (harmonicNumber_mono hn10)
    · exact percent_nonneg (weightBelow_nonneg hcore n)
    · exact percent_nonneg
        (add_nonneg (weightBelow_nonneg hcore n) (weightBelow_nonneg hext n))
    · exact percent_nonneg (weightBelow_nonneg htr n)
  · rw [h16]
    exact roundTenth_nonneg
      (div_nonneg (totalWeight_nonneg hcore) (le_of_lt H_R_pos))
  · rw [hAll]
    exact roundTenth_nonneg (div_nonneg
      (add_nonneg (totalWeight_nonneg hcore) (totalWeight_nonneg hext))
      (le_of_lt H_R_pos))
  · rw [htrTot]
    exact roundTenth_nonneg
      (div_nonneg (totalWeight_nonneg htr) (le_of_lt H_R_pos))
